import Mathlib

/-!
Verification of the CTPL thread pool (vit-vit/CTPL, file ctpl_stl.h).

The development shallowly embeds the pool's data model and operations:

* `ctpl.detail.Queue` — the mutex-protected FIFO `detail::Queue<T>` (the mutex
  only serializes the three operations, so each operation is one atomic step
  on the underlying `std::queue`, modelled as a list with head = front).
* `Cell`, `FutureSt`, `futGet` — the shared state of a
  `std::packaged_task`/`std::future` pair and the C++ `future::get` contract:
  a future either owns a shared state (`FutureSt.st`) or is invalid
  (default-constructed or already consumed by `get`); `get` on a ready state
  delivers the outcome once and releases the state; `get` on an invalid
  future reports a no-state error; destroying a never-invoked packaged task
  abandons its state with a broken-promise failure.
* `ctpl.thread_pool` — a sequential model of the controller calls
  (`resize`, `push`, `interrupt`, `clear_queue`) acting on the pool fields
  `m_threads`/`m_abort`/`m_queue` and the atomic flags.  Machine `size_t`
  arithmetic in `resize` is modelled with wrap-around at `2 ^ 64`.
* `PoolSt`/`Step`/`Reach` — an interleaving small-step model of the worker
  loop `setup_thread` running concurrently with `push`/`interrupt`, used for
  the temporal claims (draining, abort behaviour, idle-counter balance).
-/

namespace ctpl

/-! ### Generic list accessors used throughout the embedding -/

/-- Positional lookup, `none` when out of range (vector indexing that is
checked, so an out-of-range C++ access is visible as `none`). -/
def nth? {α : Type} : List α → Nat → Option α
  | [], _ => none
  | a :: _, 0 => some a
  | _ :: l, n + 1 => nth? l n

/-- Positional update; out-of-range indices leave the list unchanged. -/
def setN {α : Type} : List α → Nat → α → List α
  | [], _, _ => []
  | _ :: l, 0, a => a :: l
  | b :: l, n + 1, a => b :: setN l n a

theorem nth?_lt_length {α : Type} :
    ∀ (l : List α) (i : Nat) (a : α), nth? l i = some a → i < l.length := by
  intro l
  induction l with
  | nil => intro i a h; cases h
  | cons b l ih =>
    intro i a h
    cases i with
    | zero => exact Nat.succ_pos _
    | succ j => exact Nat.succ_lt_succ (ih j a h)

theorem nth?_mem {α : Type} :
    ∀ (l : List α) (i : Nat) (a : α), nth? l i = some a → a ∈ l := by
  intro l
  induction l with
  | nil => intro i a h; cases h
  | cons b l ih =>
    intro i a h
    cases i with
    | zero => cases h; exact List.mem_cons_self _ _
    | succ j => exact List.mem_cons_of_mem _ (ih j a h)

theorem nth?_none_of_ge {α : Type} :
    ∀ (l : List α) (i : Nat), l.length ≤ i → nth? l i = none := by
  intro l
  induction l with
  | nil => intro i _; rfl
  | cons b l ih =>
    intro i h
    cases i with
    | zero => exact absurd h (by simp)
    | succ j => exact ih j (Nat.le_of_succ_le_succ h)

theorem length_setN {α : Type} :
    ∀ (l : List α) (i : Nat) (a : α), (setN l i a).length = l.length := by
  intro l
  induction l with
  | nil => intro i a; rfl
  | cons b l ih =>
    intro i a
    cases i with
    | zero => rfl
    | succ j => simpa [setN] using ih j a

theorem nth?_setN_self {α : Type} :
    ∀ (l : List α) (i : Nat) (a b : α),
      nth? l i = some a → nth? (setN l i b) i = some b := by
  intro l
  induction l with
  | nil => intro i a b h; cases h
  | cons c l ih =>
    intro i a b h
    cases i with
    | zero => rfl
    | succ j => exact ih j a b h

theorem nth?_setN_ne {α : Type} :
    ∀ (l : List α) (i j : Nat) (b : α), i ≠ j → nth? (setN l i b) j = nth? l j := by
  intro l
  induction l with
  | nil => intro i j b _; rfl
  | cons c l ih =>
    intro i j b hij
    cases i with
    | zero =>
      cases j with
      | zero => exact absurd rfl hij
      | succ k => rfl
    | succ i' =>
      cases j with
      | zero => rfl
      | succ k => exact ih i' k b (fun h => hij (by rw [h]))

theorem mem_setN {α : Type} :
    ∀ (l : List α) (i : Nat) (b c : α), c ∈ setN l i b → c ∈ l ∨ c = b := by
  intro l
  induction l with
  | nil => intro i b c h; cases h
  | cons d l ih =>
    intro i b c h
    cases i with
    | zero =>
      rcases List.mem_cons.mp h with h | h
      · exact Or.inr h
      · exact Or.inl (List.mem_cons_of_mem _ h)
    | succ j =>
      rcases List.mem_cons.mp h with h | h
      · exact Or.inl (h ▸ List.mem_cons_self _ _)
      · rcases ih j b c h with h | h
        · exact Or.inl (List.mem_cons_of_mem _ h)
        · exact Or.inr h

theorem nth?_append {α : Type} :
    ∀ (l l' : List α) (i : Nat),
      nth? (l ++ l') i = if i < l.length then nth? l i else nth? l' (i - l.length) := by
  intro l
  induction l with
  | nil => intro l' i; simp [nth?]
  | cons b l ih =>
    intro l' i
    cases i with
    | zero => simp [nth?]
    | succ j =>
      have h1 : nth? ((b :: l) ++ l') (j + 1) = nth? (l ++ l') j := rfl
      have h2 : nth? (b :: l) (j + 1) = nth? l j := rfl
      rw [h1, ih l' j]
      simp only [List.length_cons, Nat.add_sub_add_right]
      by_cases h : j < l.length
      · rw [if_pos h, if_pos (by omega : j + 1 < l.length + 1), h2]
      · rw [if_neg h, if_neg (by omega : ¬ (j + 1 < l.length + 1))]

theorem nth?_map {α β : Type} (f : α → β) :
    ∀ (l : List α) (i : Nat), nth? (l.map f) i = (nth? l i).map f := by
  intro l
  induction l with
  | nil => intro i; rfl
  | cons b l ih =>
    intro i
    cases i with
    | zero => rfl
    | succ j => exact ih j

namespace detail

/-- The state of the task queue `detail::Queue<T>` (a `std::queue`): a list
with the head at the front.  The mutex serializes `push`/`pop`/`empty`. -/
abbrev Queue (α : Type) : Type := List α

/-- `Queue::push`: appends the value at the tail and always returns `true`
(`m_queue.push(value); return true;`). -/
def Queue.push {α : Type} (q : Queue α) (v : α) : Bool × Queue α :=
  (true, q ++ [v])

/-- `Queue::pop(T & v)`: when the queue is empty it returns `false` without
touching the out-parameter slot or the queue; otherwise it writes the front
element into the slot, removes it, and returns `true`.  The result is
`(returned bool, value of the out-slot, queue afterwards)`; `v` is the
slot's value before the call. -/
def Queue.pop {α : Type} (q : Queue α) (v : α) : Bool × α × Queue α :=
  match q with
  | [] => (false, v, [])
  | x :: xs => (true, x, xs)

/-- `Queue::empty`: point-in-time emptiness snapshot. -/
def Queue.emptyQ {α : Type} (q : Queue α) : Bool :=
  match q with
  | [] => true
  | _ :: _ => false

/-- The sequence of values obtained by calling `pop` repeatedly until it
fails: the order in which the queue hands out its elements. -/
def Queue.drainSeq {α : Type} : Queue α → List α
  | [] => []
  | x :: xs => x :: Queue.drainSeq xs

theorem drainSeq_eq {α : Type} : ∀ q : Queue α, Queue.drainSeq q = q := by
  intro q
  induction q with
  | nil => rfl
  | cons x xs ih => simpa [Queue.drainSeq] using ih

end detail

/-- C7: the task queue is a FIFO.  `push` always succeeds and appends at the
tail; `pop` on a non-empty queue removes and returns the head, and on an
empty queue signals `false` without blocking and without removal; draining
the queue returns the elements exactly in insertion order (so a task
enqueued earlier is dequeued first and no task is handed out twice). -/
theorem queue_fifo_contract {α : Type} (q : detail.Queue α) (v v0 x : α) (xs : List α) :
    detail.Queue.push q v = (true, q ++ [v]) ∧
    detail.Queue.pop (x :: xs : detail.Queue α) v0 = (true, x, xs) ∧
    detail.Queue.pop ([] : detail.Queue α) v0 = (false, v0, []) ∧
    detail.Queue.drainSeq q = q :=
  ⟨rfl, rfl, rfl, detail.drainSeq_eq q⟩

/-- C9: `Queue::pop` on an empty queue returns `false` and changes nothing:
the queue stays empty and the caller-supplied out-slot keeps its old value. -/
theorem pop_empty_noop {α : Type} (v0 : α) :
    detail.Queue.pop ([] : detail.Queue α) v0 = (false, v0, []) ∧
    detail.Queue.emptyQ ([] : detail.Queue α) = true :=
  ⟨rfl, rfl⟩

/-! ### Task outcomes and the future/packaged-task shared state -/

/-- What a task produces when run: a value or a raised failure (the
user functor's return value resp. the exception `packaged_task` catches). -/
inductive Outcome where
  | value : Nat → Outcome
  | failure : Nat → Outcome
deriving DecidableEq

/-- The shared state behind one submission's `std::future`:
not yet run (`pending`, still holding the task), run to completion
(`executed`, holding the stored outcome), or abandoned because the
never-invoked `packaged_task` was destroyed (broken promise). -/
inductive Cell where
  | pending : Outcome → Cell
  | executed : Outcome → Cell
  | abandoned : Cell
deriving DecidableEq

/-- Effect of `(*_f)(i)` on the shared state: invoking the `packaged_task`
runs the task and stores its outcome — a raised failure is caught at the
invocation boundary and stored, exactly once. -/
def resolveExec : Cell → Cell
  | Cell.pending o => Cell.executed o
  | c => c

/-- Effect of `delete _f` on a queued, never-invoked task (`clear_queue`):
destroying the last owner of the `packaged_task` abandons the shared state,
which stores a broken-promise failure at that moment. -/
def abandonCell : Cell → Cell
  | Cell.pending _ => Cell.abandoned
  | c => c

/-- Failures deliverable by `future::get`: a re-raised task failure, the
broken-promise error of an abandoned state, or the no-state error of an
invalid (empty or already-consumed) future. -/
inductive Exc where
  | user : Nat → Exc
  | brokenPromise : Exc
  | noState : Exc
deriving DecidableEq

/-- Result of one `get()` call: return a value, raise a failure, or block
(the shared state is not ready yet). -/
inductive GetRes where
  | ret : Nat → GetRes
  | raise : Exc → GetRes
  | blocked : GetRes
deriving DecidableEq

/-- A `std::future` handle: either invalid (default-constructed, or its
one-time read already happened) or owning a shared state. -/
inductive FutureSt where
  | invalid : FutureSt
  | st : Cell → FutureSt
deriving DecidableEq

/-- Reading a shared state once it is reached. -/
def cellRead : Cell → GetRes
  | Cell.pending _ => GetRes.blocked
  | Cell.executed (Outcome.value v) => GetRes.ret v
  | Cell.executed (Outcome.failure e) => GetRes.raise (Exc.user e)
  | Cell.abandoned => GetRes.raise Exc.brokenPromise

/-- `future::get()`: on an invalid future it reports the no-state error at
once; on a future with a ready state it delivers the stored outcome
(re-raising a stored failure) and releases the state, leaving the future
invalid; on a not-yet-ready state it blocks (handle retained). -/
def futGet : FutureSt → GetRes × FutureSt
  | FutureSt.invalid => (GetRes.raise Exc.noState, FutureSt.invalid)
  | FutureSt.st c =>
    match cellRead c with
    | GetRes.blocked => (GetRes.blocked, FutureSt.st c)
    | r => (r, FutureSt.invalid)

/-- C2, counterexample: a handle whose task raised failure 42 re-raises it on
the first `get()`, but the second `get()` on the same (now released) handle
reports the no-state error — not the captured failure, contradicting the
claim that each subsequent `get()` re-raises the same failure. -/
theorem second_get_not_same_failure :
    futGet (FutureSt.st (Cell.executed (Outcome.failure 42))) =
      (GetRes.raise (Exc.user 42), FutureSt.invalid) ∧
    futGet (futGet (FutureSt.st (Cell.executed (Outcome.failure 42)))).2 =
      (GetRes.raise Exc.noState, FutureSt.invalid) ∧
    GetRes.raise Exc.noState ≠ GetRes.raise (Exc.user 42) := by
  refine ⟨rfl, rfl, ?_⟩
  intro h
  cases h

/-- C2, amended: the worker stores a raised failure into the shared state
exactly once, and the FIRST `get()` on the handle re-raises that same
captured failure; the handle (a single-use `std::future`) is thereby
released, and any subsequent `get()` on it reports the invalid-handle
(no-state) error rather than the captured failure. -/
theorem failure_refire_first_get_only (e : Nat) :
    resolveExec (Cell.pending (Outcome.failure e)) = Cell.executed (Outcome.failure e) ∧
    futGet (FutureSt.st (Cell.executed (Outcome.failure e))) =
      (GetRes.raise (Exc.user e), FutureSt.invalid) ∧
    futGet FutureSt.invalid = (GetRes.raise Exc.noState, FutureSt.invalid) ∧
    GetRes.raise Exc.noState ≠ GetRes.raise (Exc.user e) := by
  refine ⟨rfl, rfl, rfl, ?_⟩
  intro h
  cases h

/-! ### Shared-state bookkeeping shared by both pool models -/

/-- Apply `f` to the cell at index `i`; out-of-range indices change nothing. -/
def modifyAt (l : List Cell) (i : Nat) (f : Cell → Cell) : List Cell :=
  match nth? l i with
  | some c => setN l i (f c)
  | none => l

theorem length_modifyAt (l : List Cell) (i : Nat) (f : Cell → Cell) :
    (modifyAt l i f).length = l.length := by
  unfold modifyAt
  cases h : nth? l i
  · rfl
  · exact length_setN l i _

theorem nth?_modifyAt_self {l : List Cell} {i : Nat} {c : Cell} (f : Cell → Cell)
    (h : nth? l i = some c) : nth? (modifyAt l i f) i = some (f c) := by
  unfold modifyAt
  rw [h]
  exact nth?_setN_self l i c (f c) h

theorem nth?_modifyAt_ne {l : List Cell} {i j : Nat} (f : Cell → Cell) (hij : i ≠ j) :
    nth? (modifyAt l i f) j = nth? l j := by
  unfold modifyAt
  cases h : nth? l i
  · rfl
  · exact nth?_setN_ne l i j _ hij

/-- `clear_queue`: pop every queued task id and destroy the task
(`delete _f`), abandoning each still-pending shared state. -/
def clearFold (cs : List Cell) (q : List Nat) : List Cell :=
  q.foldl (fun a j => modifyAt a j abandonCell) cs

theorem clearFold_nil (cs : List Cell) : clearFold cs [] = cs := rfl

theorem clearFold_cons (cs : List Cell) (j : Nat) (q : List Nat) :
    clearFold cs (j :: q) = clearFold (modifyAt cs j abandonCell) q := rfl

theorem clearFold_abandoned :
    ∀ (q : List Nat) (cs : List Cell) (id : Nat),
      nth? cs id = some Cell.abandoned →
      nth? (clearFold cs q) id = some Cell.abandoned := by
  intro q
  induction q with
  | nil => intro cs id h; exact h
  | cons j q ih =>
    intro cs id h
    rw [clearFold_cons]
    apply ih
    by_cases hji : j = id
    · subst hji
      simpa [abandonCell] using nth?_modifyAt_self abandonCell h
    · rw [nth?_modifyAt_ne abandonCell hji]
      exact h

theorem clearFold_pending_mem :
    ∀ (q : List Nat) (cs : List Cell) (id : Nat) (o : Outcome),
      nth? cs id = some (Cell.pending o) → id ∈ q →
      nth? (clearFold cs q) id = some Cell.abandoned := by
  intro q
  induction q with
  | nil => intro cs id o _ hm; cases hm
  | cons j q ih =>
    intro cs id o h hm
    rw [clearFold_cons]
    by_cases hji : j = id
    · subst hji
      have hab : nth? (modifyAt cs j abandonCell) j = some Cell.abandoned := by
        simpa [abandonCell] using nth?_modifyAt_self abandonCell h
      exact clearFold_abandoned q _ j hab
    · have hm' : id ∈ q := by
        rcases List.mem_cons.mp hm with h' | h'
        · exact absurd h'.symm hji
        · exact h'
      have hcell : nth? (modifyAt cs j abandonCell) id = some (Cell.pending o) := by
        rw [nth?_modifyAt_ne abandonCell hji]
        exact h
      exact ih _ id o hcell hm'

theorem clearFold_pending_inv :
    ∀ (q : List Nat) (cs : List Cell) (id : Nat) (o : Outcome),
      nth? (clearFold cs q) id = some (Cell.pending o) →
      nth? cs id = some (Cell.pending o) ∧ id ∉ q := by
  intro q
  induction q with
  | nil =>
    intro cs id o h
    exact ⟨h, by intro hm; cases hm⟩
  | cons j q ih =>
    intro cs id o h
    rw [clearFold_cons] at h
    rcases ih _ id o h with ⟨h1, h2⟩
    by_cases hji : j = id
    · subst hji
      exfalso
      cases hc : nth? cs j with
      | none =>
        have hid : modifyAt cs j abandonCell = cs := by
          unfold modifyAt
          rw [hc]
        rw [hid, hc] at h1
        cases h1
      | some c =>
        rw [nth?_modifyAt_self abandonCell hc] at h1
        have h1' := Option.some.inj h1
        cases c <;> simp [abandonCell] at h1'
    · rw [nth?_modifyAt_ne abandonCell hji] at h1
      refine ⟨h1, ?_⟩
      intro hm
      rcases List.mem_cons.mp hm with h' | h'
      · exact hji h'.symm
      · exact h2 h'

/-! ### Sequential model of the pool controller (`class thread_pool`) -/

namespace thread_pool

/-- The controller-visible pool state: `m_threads` (as its size — thread
handles carry no further data here), the dereferenced per-worker abort flags
`m_abort`, the task queue `m_queue` (ids of submitted tasks), the shared
state of every issued future (by task id, in submission order), and the
atomic flags `ma_interrupt` / `ma_kill`. -/
structure PoolState where
  threads : Nat
  aborts : List Bool
  queue : List Nat
  cells : List Cell
  maInterrupt : Bool
  maKill : Bool
deriving DecidableEq

/-- Modulus of `size_t` arithmetic (64-bit). -/
def sizeTMod : Nat := 2 ^ 64

inductive ResizeErr where
  | oob : ResizeErr
  | fuelOut : ResizeErr
deriving DecidableEq

/-- The descending shrink loop of `resize`
(`for (size_t i = oldNThreads - 1; i >= nThreads; --i) { *m_abort[i] = true; m_threads[i]->detach(); }`):
`i` is a `size_t`, so `--i` at `i = 0` wraps to `2 ^ 64 - 1`; the body's
`m_abort[i]` access is unchecked in C++ — an out-of-range index is reported
here as `ResizeErr.oob` (undefined behaviour in the source).  `fuel` bounds
the modelled iterations and is chosen large enough in `resize` that
`fuelOut` is unreachable for in-range loops. -/
def shrinkLoop : Nat → Nat → Nat → List Bool → Except ResizeErr (List Bool)
  | 0, _, _, _ => Except.error ResizeErr.fuelOut
  | fuel + 1, i, nThreads, ab =>
    if nThreads ≤ i then
      if i < ab.length then
        shrinkLoop fuel (if i = 0 then sizeTMod - 1 else i - 1) nThreads (setN ab i true)
      else Except.error ResizeErr.oob
    else Except.ok ab

theorem shrinkLoop_succ (fuel i nThreads : Nat) (ab : List Bool) :
    shrinkLoop (fuel + 1) i nThreads ab =
      if nThreads ≤ i then
        if i < ab.length then
          shrinkLoop fuel (if i = 0 then sizeTMod - 1 else i - 1) nThreads (setN ab i true)
        else Except.error ResizeErr.oob
      else Except.ok ab := rfl

/-- `thread_pool::resize(nThreads)`: a no-op unless both shutdown flags are
clear.  Growing resizes `m_threads`/`m_abort` and starts fresh workers with
cleared abort flags; shrinking runs the descending abort/detach loop and
then truncates both vectors.  The task queue is never touched. -/
def resize (s : PoolState) (nThreads : Nat) : Except ResizeErr PoolState :=
  if !s.maKill && !s.maInterrupt then
    let oldN := s.threads
    if oldN ≤ nThreads then
      Except.ok { s with threads := nThreads,
                         aborts := s.aborts ++ List.replicate (nThreads - oldN) false }
    else
      match shrinkLoop (oldN + 2) (oldN - 1) nThreads s.aborts with
      | Except.ok ab => Except.ok { s with threads := nThreads, aborts := ab.take nThreads }
      | Except.error e => Except.error e
  else Except.ok s

/-- `thread_pool::push`: when neither shutdown flag is set, wrap the task in
a fresh shared state, enqueue its id at the tail and hand back a future on
that state; otherwise enqueue nothing and return a default-constructed
(invalid, stateless) future, leaving the pool untouched. -/
def push (s : PoolState) (o : Outcome) : FutureSt × PoolState :=
  if !s.maKill && !s.maInterrupt then
    (FutureSt.st (Cell.pending o),
     { s with queue := s.queue ++ [s.cells.length],
              cells := s.cells ++ [Cell.pending o] })
  else (FutureSt.invalid, s)

/-- `thread_pool::clear_queue` acting on the sequential state. -/
def clear_queue (s : PoolState) : PoolState :=
  { s with cells := clearFold s.cells s.queue, queue := [] }

/-- The queue-draining effect of joining the workers under a graceful
interrupt: every live worker keeps popping and executing tasks until the
queue is empty (the worker-loop behaviour, established on the step model
below), so with at least one worker all queued tasks get executed; a pool
with zero workers has nobody to drain the queue. -/
def drainFold (cs : List Cell) (q : List Nat) : List Cell :=
  q.foldl (fun a j => modifyAt a j resolveExec) cs

/-- `thread_pool::interrupt(kill)`:
`kill = true`: a no-op when `ma_kill` is already set; otherwise set
`ma_kill`, command every worker to stop via its abort flag, wake and join
the workers, discard the still-queued tasks (`clear_queue`, abandoning their
shared states) and clear `m_threads`/`m_abort`.
`kill = false`: a no-op when `ma_interrupt` or `ma_kill` is already set;
otherwise set `ma_interrupt`, wake and join the workers (who drain the
queue when any worker exists), run `clear_queue` on whatever is left and
clear the vectors. -/
def interrupt (kill : Bool) (s : PoolState) : PoolState :=
  if kill then
    if s.maKill then s
    else
      let s1 : PoolState := { s with maKill := true, aborts := s.aborts.map (fun _ => true) }
      let s2 := clear_queue s1
      { s2 with threads := 0, aborts := [] }
  else
    if s.maInterrupt || s.maKill then s
    else
      let s1 : PoolState := { s with maInterrupt := true }
      let s2 : PoolState :=
        if s1.threads = 0 then s1
        else { s1 with cells := drainFold s1.cells s1.queue, queue := [] }
      let s3 := clear_queue s2
      { s3 with threads := 0, aborts := [] }

end thread_pool

/-- A live pool of two workers with one task still queued and both shutdown
flags clear — the configuration of spec scenario 3 just before `resize(0)`. -/
def poolTwo : thread_pool.PoolState :=
  { threads := 2, aborts := [false, false], queue := [0],
    cells := [Cell.pending (Outcome.value 9)], maInterrupt := false, maKill := false }

/-- C1: evaluating `resize` at the failing input.  From two workers,
`resize 1` behaves exactly as the claim describes (excess worker
abort-flagged and dropped, `size()` becomes 1, the queued task kept), but
`resize 0` — included in the claim — never reaches that state: the
descending `size_t` loop wraps past zero and performs an out-of-range
`m_abort[2^64 - 1]` access (undefined behaviour), so the pool is never
truncated to size 0. -/
theorem resize_zero_wraps_out_of_range :
    thread_pool.resize poolTwo 1 =
      Except.ok { threads := 1, aborts := [false], queue := [0],
                  cells := [Cell.pending (Outcome.value 9)],
                  maInterrupt := false, maKill := false } ∧
    thread_pool.resize poolTwo 0 = Except.error thread_pool.ResizeErr.oob ∧
    (∀ s' : thread_pool.PoolState, thread_pool.resize poolTwo 0 ≠ Except.ok s') := by
  refine ⟨rfl, rfl, ?_⟩
  intro s' h
  rw [(rfl : thread_pool.resize poolTwo 0 = Except.error thread_pool.ResizeErr.oob)] at h
  cases h

/-- Truncation below an updated index is unaffected by the update. -/
theorem take_setN {α : Type} :
    ∀ (l : List α) (i n : Nat) (x : α), n ≤ i → (setN l i x).take n = l.take n := by
  intro l
  induction l with
  | nil => intro i n x _; rfl
  | cons b l ih =>
    intro i n x h
    cases i with
    | zero =>
      cases n with
      | zero => rfl
      | succ m => exact absurd h (by omega)
    | succ j =>
      cases n with
      | zero => rfl
      | succ m =>
        show b :: (setN l j x).take m = b :: l.take m
        rw [ih j m x (by omega)]

/-- Supporting fact for C1: with a POSITIVE target `n`, the descending shrink
loop started at `n + k` terminates normally (no wrap-around), leaving the
first `n` flags untouched. -/
theorem shrinkLoop_pos_ok :
    ∀ (k n : Nat) (ab : List Bool) (fuel : Nat),
      1 ≤ n → n + k < ab.length → k + 2 ≤ fuel →
      ∃ ab', thread_pool.shrinkLoop fuel (n + k) n ab = Except.ok ab' ∧
        ab'.take n = ab.take n ∧ ab'.length = ab.length := by
  intro k
  induction k with
  | zero =>
    intro n ab fuel h1 h2 h3
    cases fuel with
    | zero => exact absurd h3 (by omega)
    | succ f =>
      cases f with
      | zero => exact absurd h3 (by omega)
      | succ f2 =>
        have hz : n + 0 = n := rfl
        rw [hz, thread_pool.shrinkLoop_succ, if_pos (Nat.le_refl n), if_pos (by omega : n < ab.length),
          if_neg (by omega : ¬ n = 0), thread_pool.shrinkLoop_succ,
          if_neg (by omega : ¬ n ≤ n - 1)]
        exact ⟨setN ab n true, rfl, take_setN ab n n true (Nat.le_refl n),
          length_setN ab n true⟩
  | succ kk ih =>
    intro n ab fuel h1 h2 h3
    cases fuel with
    | zero => exact absurd h3 (by omega)
    | succ f =>
      rw [thread_pool.shrinkLoop_succ, if_pos (by omega : n ≤ n + (kk + 1)),
        if_pos (by omega : n + (kk + 1) < ab.length),
        if_neg (by omega : ¬ n + (kk + 1) = 0)]
      have harg : n + (kk + 1) - 1 = n + kk := by omega
      rw [harg]
      obtain ⟨ab', hrun, htake, hlen⟩ :=
        ih n (setN ab (n + (kk + 1)) true) f h1 (by rw [length_setN]; omega) (by omega)
      refine ⟨ab', hrun, ?_, by rw [hlen, length_setN]⟩
      rw [htake, take_setN ab _ n true (by omega)]

/-- Supporting fact for C1: shrinking to any POSITIVE `n < m` behaves as the
claim describes — the call succeeds, `size()` becomes `n`, the surviving
abort flags are the old first `n`, and the queue, shared states and flags
are untouched.  Only `n = 0` escapes this (see the main C1 theorem). -/
theorem resize_shrink_pos (s : thread_pool.PoolState) (n : Nat)
    (hk : s.maKill = false) (hi : s.maInterrupt = false)
    (hlen : s.aborts.length = s.threads) (h1 : 1 ≤ n) (h2 : n < s.threads) :
    thread_pool.resize s n =
      Except.ok { s with threads := n, aborts := s.aborts.take n } := by
  unfold thread_pool.resize
  simp only [hk, hi, Bool.not_false, Bool.and_self, if_true]
  rw [if_neg (by omega : ¬ s.threads ≤ n)]
  obtain ⟨ab', hrun, htake, _⟩ :=
    shrinkLoop_pos_ok (s.threads - 1 - n) n s.aborts (s.threads + 2) h1
      (by omega) (by omega)
  have harg : s.threads - 1 = n + (s.threads - 1 - n) := by omega
  rw [harg, hrun]
  simp only [htake]

/-- Witness instantiating `resize_shrink_pos` on a concrete three-worker
pool. -/
theorem resize_shrink_pos_witness :
    thread_pool.resize
        { threads := 3, aborts := [false, false, false], queue := [0],
          cells := [Cell.pending (Outcome.value 9)],
          maInterrupt := false, maKill := false } 1 =
      Except.ok
        { threads := 1, aborts := [false], queue := [0],
          cells := [Cell.pending (Outcome.value 9)],
          maInterrupt := false, maKill := false } := by
  have h := resize_shrink_pos
    { threads := 3, aborts := [false, false, false], queue := [0],
      cells := [Cell.pending (Outcome.value 9)],
      maInterrupt := false, maKill := false } 1 rfl rfl rfl (by decide) (by decide)
  exact h

/-- A pool that has been shut down with `interrupt(true)`. -/
def deadPool : thread_pool.PoolState :=
  { threads := 0, aborts := [], queue := [], cells := [],
    maInterrupt := false, maKill := true }

/-- C3: once the interrupt-flag or the kill-flag is set, `push` enqueues
nothing and leaves the whole pool state (in particular the task queue)
unchanged, returning a default-constructed future; `get()` on that invalid
handle reports the no-state rejection immediately — it does not block. -/
theorem push_rejected_when_shutdown (s : thread_pool.PoolState) (o : Outcome)
    (h : s.maKill = true ∨ s.maInterrupt = true) :
    thread_pool.push s o = (FutureSt.invalid, s) ∧
    futGet FutureSt.invalid = (GetRes.raise Exc.noState, FutureSt.invalid) ∧
    (futGet FutureSt.invalid).1 ≠ GetRes.blocked := by
  refine ⟨?_, rfl, by intro h'; cases h'⟩
  unfold thread_pool.push
  rcases h with h | h <;> simp [h]

/-- Witness for C3 at a concrete killed pool. -/
theorem push_rejected_when_shutdown_witness :
    (deadPool.maKill = true ∨ deadPool.maInterrupt = true) ∧
    (thread_pool.push deadPool (Outcome.value 1) = (FutureSt.invalid, deadPool) ∧
     futGet FutureSt.invalid = (GetRes.raise Exc.noState, FutureSt.invalid) ∧
     (futGet FutureSt.invalid).1 ≠ GetRes.blocked) :=
  ⟨Or.inl rfl, push_rejected_when_shutdown deadPool (Outcome.value 1) (Or.inl rfl)⟩

/-- C8: `interrupt` is idempotent.  When the pool is already in the
requested or a stricter shutdown state — interrupt-flag (or kill-flag) set
for `interrupt(false)`, kill-flag set for `interrupt(true)` — the call
returns at once without modifying any pool state; in particular a second
`interrupt(false)` right after a first one changes nothing. -/
theorem interrupt_idempotent (s : thread_pool.PoolState) (kill : Bool) :
    ((if kill then s.maKill = true else (s.maInterrupt || s.maKill) = true) →
      thread_pool.interrupt kill s = s) ∧
    thread_pool.interrupt false (thread_pool.interrupt false s) =
      thread_pool.interrupt false s := by
  have noop : ∀ t : thread_pool.PoolState, (t.maInterrupt || t.maKill) = true →
      thread_pool.interrupt false t = t := by
    intro t ht
    simp [thread_pool.interrupt, ht]
  constructor
  · intro h
    cases kill with
    | true =>
      have h' : s.maKill = true := h
      simp [thread_pool.interrupt, h']
    | false =>
      exact noop s h
  · by_cases hI : s.maInterrupt = true
    · have h0 := noop s (by simp [hI])
      rw [h0]
      exact h0
    · by_cases hK : s.maKill = true
      · have h0 := noop s (by simp [hK])
        rw [h0]
        exact h0
      · have hI' : s.maInterrupt = false := by
          cases h : s.maInterrupt
          · rfl
          · exact absurd h hI
        have hK' : s.maKill = false := by
          cases h : s.maKill
          · rfl
          · exact absurd h hK
        apply noop
        by_cases ht : s.threads = 0 <;>
          simp [thread_pool.interrupt, thread_pool.clear_queue, hI', hK', ht]

/-- A pool whose interrupt-flag is already set. -/
def interruptedPool : thread_pool.PoolState :=
  { threads := 0, aborts := [], queue := [], cells := [],
    maInterrupt := true, maKill := false }

/-- Witness for C8 at concrete pools (interrupt-flag already set; double graceful interrupt). -/
theorem interrupt_idempotent_witness :
    (interruptedPool.maInterrupt || interruptedPool.maKill) = true ∧
    thread_pool.interrupt false interruptedPool = interruptedPool ∧
    thread_pool.interrupt false (thread_pool.interrupt false poolTwo) =
      thread_pool.interrupt false poolTwo :=
  ⟨rfl, (interrupt_idempotent interruptedPool false).1 rfl,
   (interrupt_idempotent poolTwo false).2⟩

/-! ### Interleaving small-step model of `setup_thread` and the controller

Each worker thread runs the loop of `thread_pool::setup_thread`:

* it first pops (`more_tasks = m_queue.pop(_f)`), then while it holds a task
  it executes it, checks its own abort flag (returning at once when set),
  and otherwise pops again;
* with the queue empty it increments `ma_n_idle` and waits on `m_cond` with
  predicate `more_tasks = m_queue.pop(_f); return abort || ma_interrupt ||
  more_tasks;` — note the predicate pops BEFORE looking at the flags;
* after the wait it decrements `ma_n_idle` and returns when the predicate
  fired without a task.

A `Step` is one atomic transition of one worker or one controller call
(task submission, `interrupt(false)` setting `ma_interrupt`, or the
flag-setting part of `interrupt(true)`); `interrupt`'s join is represented
by reasoning about states in which every worker has terminated, and the
`clear_queue`/vector-clearing tail of `interrupt` by `clearQueueFinish`. -/

/-- Control position of one worker thread inside `setup_thread`'s loop. -/
inductive Phase where
  | fresh : Phase
  | busy : Nat → Phase
  | waiting : Phase
  | done : Phase
deriving DecidableEq

/-- One worker: its dereferenced abort flag and its loop position. -/
structure Worker where
  abort : Bool
  phase : Phase
deriving DecidableEq

/-- Pool state for the interleaving model: the queue of task ids, the
shared state of every issued future (by id), the ghost record of each
submitted task's outcome, the atomic flags, `ma_n_idle`, and the workers. -/
structure PoolSt where
  queue : List Nat
  cells : List Cell
  specs : List Outcome
  maInterrupt : Bool
  maKill : Bool
  nIdle : Nat
  workers : List Worker
deriving DecidableEq

/-- Pool freshly set up by `init`/`resize(n)`: flags clear, idle counter 0,
`n` workers each about to do its initial pop. -/
def initSt (n : Nat) : PoolSt :=
  { queue := [], cells := [], specs := [], maInterrupt := false, maKill := false,
    nIdle := 0, workers := List.replicate n ⟨false, Phase.fresh⟩ }

/-- State after one `(*_f)(i)` returns inside the drain loop: the task's
outcome is stored, then the worker checks its abort flag — if set it
returns at once (even with tasks still queued); otherwise it pops again,
going idle (incrementing `ma_n_idle`, ready to wait) when the pop fails. -/
def afterExec (s : PoolSt) (i : Nat) (w : Worker) (t : Nat) : PoolSt :=
  if w.abort = true then
    { s with cells := modifyAt s.cells t resolveExec,
             workers := setN s.workers i { w with phase := Phase.done } }
  else
    match s.queue with
    | t' :: rest =>
      { s with cells := modifyAt s.cells t resolveExec, queue := rest,
               workers := setN s.workers i { w with phase := Phase.busy t' } }
    | [] =>
      { s with cells := modifyAt s.cells t resolveExec, nIdle := s.nIdle + 1,
               workers := setN s.workers i { w with phase := Phase.waiting } }

theorem afterExec_abort (s : PoolSt) (i : Nat) (w : Worker) (t : Nat)
    (hab : w.abort = true) :
    afterExec s i w t =
      { s with cells := modifyAt s.cells t resolveExec,
               workers := setN s.workers i { w with phase := Phase.done } } := by
  simp [afterExec, hab]

theorem afterExec_cons (s : PoolSt) (i : Nat) (w : Worker) (t t' : Nat) (rest : List Nat)
    (hab : w.abort = false) (hq : s.queue = t' :: rest) :
    afterExec s i w t =
      { s with cells := modifyAt s.cells t resolveExec, queue := rest,
               workers := setN s.workers i { w with phase := Phase.busy t' } } := by
  simp [afterExec, hab, hq]

theorem afterExec_nil (s : PoolSt) (i : Nat) (w : Worker) (t : Nat)
    (hab : w.abort = false) (hq : s.queue = []) :
    afterExec s i w t =
      { s with cells := modifyAt s.cells t resolveExec, nIdle := s.nIdle + 1,
               workers := setN s.workers i { w with phase := Phase.waiting } } := by
  simp [afterExec, hab, hq]

/-- One atomic transition of the pool. -/
inductive Step : PoolSt → PoolSt → Prop where
  | push (s : PoolSt) (o : Outcome)
      (hk : s.maKill = false) (hi : s.maInterrupt = false) :
      Step s { s with queue := s.queue ++ [s.cells.length],
                      cells := s.cells ++ [Cell.pending o],
                      specs := s.specs ++ [o] }
  | freshPop (s : PoolSt) (i : Nat) (w : Worker) (t : Nat) (rest : List Nat)
      (hw : nth? s.workers i = some w) (hp : w.phase = Phase.fresh)
      (hq : s.queue = t :: rest) :
      Step s { s with queue := rest,
                      workers := setN s.workers i { w with phase := Phase.busy t } }
  | freshWait (s : PoolSt) (i : Nat) (w : Worker)
      (hw : nth? s.workers i = some w) (hp : w.phase = Phase.fresh)
      (hq : s.queue = []) :
      Step s { s with nIdle := s.nIdle + 1,
                      workers := setN s.workers i { w with phase := Phase.waiting } }
  | exec (s : PoolSt) (i : Nat) (w : Worker) (t : Nat)
      (hw : nth? s.workers i = some w) (hp : w.phase = Phase.busy t) :
      Step s (afterExec s i w t)
  | wakePop (s : PoolSt) (i : Nat) (w : Worker) (t : Nat) (rest : List Nat)
      (hw : nth? s.workers i = some w) (hp : w.phase = Phase.waiting)
      (hq : s.queue = t :: rest) :
      Step s { s with queue := rest, nIdle := s.nIdle - 1,
                      workers := setN s.workers i { w with phase := Phase.busy t } }
  | wakeDone (s : PoolSt) (i : Nat) (w : Worker)
      (hw : nth? s.workers i = some w) (hp : w.phase = Phase.waiting)
      (hq : s.queue = []) (hcond : w.abort = true ∨ s.maInterrupt = true) :
      Step s { s with nIdle := s.nIdle - 1,
                      workers := setN s.workers i { w with phase := Phase.done } }
  | interruptFlag (s : PoolSt)
      (hi : s.maInterrupt = false) (hk : s.maKill = false) :
      Step s { s with maInterrupt := true }
  | killFlag (s : PoolSt) (hk : s.maKill = false) :
      Step s { s with maKill := true,
                      workers := s.workers.map (fun w => { w with abort := true }) }

/-- States reachable from some freshly initialized pool. -/
inductive Reach : PoolSt → Prop where
  | init (n : Nat) : Reach (initSt n)
  | step {s s' : PoolSt} : Reach s → Step s s' → Reach s'

/-- Tail of `interrupt` once every worker has been joined: `clear_queue`
destroys the still-queued tasks (abandoning their shared states) and the
worker vectors are cleared. -/
def clearQueueFinish (s : PoolSt) : PoolSt :=
  { s with cells := clearFold s.cells s.queue, queue := [], workers := [] }

/-! ### Counting helpers for the invariants -/

/-- Occurrences of a task id in the queue. -/
def cntN (a : Nat) : List Nat → Nat
  | [] => 0
  | b :: l => (if b = a then 1 else 0) + cntN a l

/-- Whether a worker currently holds task `t`. -/
def busyContrib (t : Nat) (w : Worker) : Nat :=
  match w.phase with
  | Phase.busy u => if u = t then 1 else 0
  | _ => 0

/-- Number of workers currently holding task `t`. -/
def busyCount (t : Nat) : List Worker → Nat
  | [] => 0
  | w :: ws => busyContrib t w + busyCount t ws

/-- Whether a worker is counted in `ma_n_idle` (it is between the
increment and the decrement around `m_cond.wait`). -/
def waitContrib (w : Worker) : Nat :=
  if w.phase = Phase.waiting then 1 else 0

/-- Number of workers currently inside the idle wait. -/
def waitCount : List Worker → Nat
  | [] => 0
  | w :: ws => waitContrib w + waitCount ws

/-- How many owners a still-pending cell must have (one: either queued or
held by a worker); executed, abandoned or non-existent cells have none. -/
def pendWeight : Option Cell → Nat
  | some (Cell.pending _) => 1
  | _ => 0

/-- Number of places task id `id` currently lives (queue plus workers). -/
def cnt (s : PoolSt) (id : Nat) : Nat :=
  cntN id s.queue + busyCount id s.workers

/-- Ownership accounting for one cell. -/
def ownAt (s : PoolSt) (id : Nat) : Prop :=
  cnt s id = pendWeight (nth? s.cells id)

theorem cntN_append (a : Nat) :
    ∀ l l' : List Nat, cntN a (l ++ l') = cntN a l + cntN a l' := by
  intro l l'
  induction l with
  | nil => simp [cntN]
  | cons b l ih => simp [cntN, ih]; omega

theorem cntN_pos_iff (a : Nat) : ∀ l : List Nat, 0 < cntN a l ↔ a ∈ l := by
  intro l
  induction l with
  | nil => simp [cntN]
  | cons b l ih =>
    simp only [cntN, List.mem_cons]
    by_cases h : b = a
    · subst h
      simp
    · rw [if_neg h]
      simp only [Nat.zero_add, ih]
      constructor
      · intro hm
        exact Or.inr hm
      · intro hm
        rcases hm with hm | hm
        · exact absurd hm.symm h
        · exact hm

theorem busyCount_setN (t : Nat) :
    ∀ (l : List Worker) (i : Nat) (w w' : Worker), nth? l i = some w →
      busyCount t (setN l i w') + busyContrib t w = busyCount t l + busyContrib t w' := by
  intro l
  induction l with
  | nil => intro i w w' h; cases h
  | cons v l ih =>
    intro i w w' h
    cases i with
    | zero =>
      cases h
      simp [setN, busyCount]
      omega
    | succ j =>
      have := ih j w w' h
      simp only [setN, busyCount]
      omega

theorem waitCount_setN :
    ∀ (l : List Worker) (i : Nat) (w w' : Worker), nth? l i = some w →
      waitCount (setN l i w') + waitContrib w = waitCount l + waitContrib w' := by
  intro l
  induction l with
  | nil => intro i w w' h; cases h
  | cons v l ih =>
    intro i w w' h
    cases i with
    | zero =>
      cases h
      simp [setN, waitCount]
      omega
    | succ j =>
      have := ih j w w' h
      simp only [setN, waitCount]
      omega

theorem busyCount_map_abort (t : Nat) :
    ∀ l : List Worker,
      busyCount t (l.map (fun w => { w with abort := true })) = busyCount t l := by
  intro l
  induction l with
  | nil => rfl
  | cons w l ih => simp [busyCount, busyContrib, ih]

theorem waitCount_map_abort :
    ∀ l : List Worker,
      waitCount (l.map (fun w => { w with abort := true })) = waitCount l := by
  intro l
  induction l with
  | nil => rfl
  | cons w l ih => simp [waitCount, waitContrib, ih]

theorem busyCount_pos (t : Nat) :
    ∀ (l : List Worker) (i : Nat) (w : Worker),
      nth? l i = some w → w.phase = Phase.busy t → 0 < busyCount t l := by
  intro l
  induction l with
  | nil => intro i w h; cases h
  | cons v l ih =>
    intro i w h hp
    cases i with
    | zero =>
      cases h
      simp [busyCount, busyContrib, hp]
    | succ j =>
      have := ih j w h hp
      simp only [busyCount]
      omega

theorem busyCount_zero_of_done (t : Nat) :
    ∀ l : List Worker, (∀ w ∈ l, w.phase = Phase.done) → busyCount t l = 0 := by
  intro l
  induction l with
  | nil => intro _; rfl
  | cons w l ih =>
    intro h
    have hw := h w (List.mem_cons_self _ _)
    have hl := ih (fun v hv => h v (List.mem_cons_of_mem _ hv))
    simp [busyCount, busyContrib, hw, hl]

theorem waitCount_zero_of_done :
    ∀ l : List Worker, (∀ w ∈ l, w.phase = Phase.done) → waitCount l = 0 := by
  intro l
  induction l with
  | nil => intro _; rfl
  | cons w l ih =>
    intro h
    have hw := h w (List.mem_cons_self _ _)
    have hl := ih (fun v hv => h v (List.mem_cons_of_mem _ hv))
    simp [waitCount, waitContrib, hw, hl]

theorem busyCount_replicate_fresh (t n : Nat) :
    busyCount t (List.replicate n ⟨false, Phase.fresh⟩) = 0 := by
  induction n with
  | zero => rfl
  | succ m ih => simpa [List.replicate, busyCount, busyContrib] using ih

theorem waitCount_replicate_fresh (n : Nat) :
    waitCount (List.replicate n ⟨false, Phase.fresh⟩) = 0 := by
  induction n with
  | zero => rfl
  | succ m ih => simpa [List.replicate, waitCount, waitContrib] using ih

theorem pendWeight_le_one : ∀ c? : Option Cell, pendWeight c? ≤ 1 := by
  intro c?
  cases c? with
  | none => exact Nat.zero_le 1
  | some c => cases c <;> simp [pendWeight]

theorem pendWeight_eq_one :
    ∀ c? : Option Cell, pendWeight c? = 1 → ∃ o, c? = some (Cell.pending o) := by
  intro c? h
  cases c? with
  | none => cases h
  | some c =>
    cases c with
    | pending o => exact ⟨o, rfl⟩
    | executed o => cases h
    | abandoned => cases h

/-- A small helper: evaluating `cntN` on a cons cell. -/
theorem cntN_cons (a b : Nat) (l : List Nat) :
    cntN a (b :: l) = (if b = a then 1 else 0) + cntN a l := rfl

/-! ### The reachability invariant -/

/-- Invariant of all reachable pool states:
`len_eq`/`spec_ok` — one shared state per submitted task, holding (before
or after execution) exactly the outcome recorded for that task at
submission; `own` — a pending task lives in exactly one place (queue or a
worker's hands), an executed one in none, so no task is dequeued twice or
executed after being resolved; `idle_eq` — `ma_n_idle` equals the number of
workers inside the condition wait; `done_flag` — a worker only terminates
when its abort flag or the pool interrupt-flag is set; `drainP` — while no
abort flag is set, a pool with at least one worker has an empty queue once
every worker has terminated. -/
structure Inv (s : PoolSt) : Prop where
  len_eq : s.cells.length = s.specs.length
  spec_ok : ∀ id c, nth? s.cells id = some c →
    ∃ o, nth? s.specs id = some o ∧ (c = Cell.pending o ∨ c = Cell.executed o)
  own : ∀ id, ownAt s id
  idle_eq : s.nIdle = waitCount s.workers
  done_flag : ∀ w ∈ s.workers, w.phase = Phase.done → (w.abort = true ∨ s.maInterrupt = true)
  drainP : s.workers ≠ [] → (∀ w ∈ s.workers, w.phase = Phase.done) →
    (∀ w ∈ s.workers, w.abort = false) → s.queue = []

theorem inv_init (n : Nat) : Inv (initSt n) := by
  refine ⟨rfl, ?_, ?_, ?_, ?_, ?_⟩
  · intro id c h
    cases id <;> cases h
  · intro id
    show cntN id [] + busyCount id (List.replicate n ⟨false, Phase.fresh⟩) =
      pendWeight (nth? ([] : List Cell) id)
    have h1 : nth? ([] : List Cell) id = none := by cases id <;> rfl
    rw [h1, busyCount_replicate_fresh]
    rfl
  · show 0 = waitCount (List.replicate n ⟨false, Phase.fresh⟩)
    rw [waitCount_replicate_fresh]
  · intro w hw hd
    have := List.eq_of_mem_replicate hw
    subst this
    cases hd
  · intro hne hdone _
    exfalso
    obtain ⟨w, hw⟩ := List.exists_mem_of_ne_nil _ hne
    have h1 := hdone w hw
    have h2 := List.eq_of_mem_replicate hw
    subst h2
    cases h1

theorem inv_push (s : PoolSt) (o : Outcome)
    (hi : s.maInterrupt = false) (hInv : Inv s) :
    Inv { s with queue := s.queue ++ [s.cells.length],
                 cells := s.cells ++ [Cell.pending o],
                 specs := s.specs ++ [o] } := by
  have hlen := hInv.len_eq
  refine ⟨?_, ?_, ?_, hInv.idle_eq, ?_, ?_⟩
  · simp [hlen]
  · intro id c h
    show ∃ o', nth? (s.specs ++ [o]) id = some o' ∧
      (c = Cell.pending o' ∨ c = Cell.executed o')
    rw [nth?_append] at h
    by_cases hlt : id < s.cells.length
    · rw [if_pos hlt] at h
      obtain ⟨o', ho', hc⟩ := hInv.spec_ok id c h
      refine ⟨o', ?_, hc⟩
      rw [nth?_append, if_pos (by omega : id < s.specs.length)]
      exact ho'
    · rw [if_neg hlt] at h
      cases hd : id - s.cells.length with
      | zero =>
        rw [hd] at h
        cases h
        refine ⟨o, ?_, Or.inl rfl⟩
        rw [nth?_append, if_neg (by omega : ¬ id < s.specs.length)]
        have hz : id - s.specs.length = 0 := by omega
        rw [hz]
        rfl
      | succ k =>
        rw [hd] at h
        cases h
  · intro id
    have hownq : cntN id s.queue + busyCount id s.workers =
        pendWeight (nth? s.cells id) := hInv.own id
    show cntN id (s.queue ++ [s.cells.length]) + busyCount id s.workers =
      pendWeight (nth? (s.cells ++ [Cell.pending o]) id)
    rw [cntN_append, cntN_cons, nth?_append]
    have hc0 : cntN id ([] : List Nat) = 0 := rfl
    have h0 : pendWeight none = 0 := rfl
    by_cases hlt : id < s.cells.length
    · rw [if_pos hlt, if_neg (by omega : ¬ s.cells.length = id), hc0]
      omega
    · rw [if_neg hlt]
      have hnone : nth? s.cells id = none := nth?_none_of_ge s.cells id (by omega)
      rw [hnone, h0] at hownq
      by_cases heq : id = s.cells.length
      · rw [if_pos (by omega : s.cells.length = id)]
        have hz : id - s.cells.length = 0 := by omega
        rw [hz, hc0]
        have h1 : pendWeight (nth? [Cell.pending o] 0) = 1 := rfl
        rw [h1]
        omega
      · rw [if_neg (by omega : ¬ s.cells.length = id), hc0]
        cases hd : id - s.cells.length with
        | zero => omega
        | succ k =>
          have h1 : pendWeight (nth? [Cell.pending o] (k + 1)) = 0 := rfl
          rw [h1]
          omega
  · intro w hw hd
    exact hInv.done_flag w hw hd
  · intro hne hdone hnoab
    exfalso
    obtain ⟨w, hw⟩ := List.exists_mem_of_ne_nil _ hne
    rcases hInv.done_flag w hw (hdone w hw) with h | h
    · rw [hnoab w hw] at h
      cases h
    · rw [hi] at h
      cases h

theorem inv_freshPop (s : PoolSt) (i : Nat) (w : Worker) (t : Nat) (rest : List Nat)
    (hw : nth? s.workers i = some w) (hp : w.phase = Phase.fresh)
    (hq : s.queue = t :: rest) (hInv : Inv s) :
    Inv { s with queue := rest,
                 workers := setN s.workers i { w with phase := Phase.busy t } } := by
  refine ⟨hInv.len_eq, hInv.spec_ok, ?_, ?_, ?_, ?_⟩
  · intro id
    have hownq : cntN id s.queue + busyCount id s.workers =
        pendWeight (nth? s.cells id) := hInv.own id
    show cntN id rest + busyCount id (setN s.workers i { w with phase := Phase.busy t }) =
      pendWeight (nth? s.cells id)
    have hbc := busyCount_setN id s.workers i w { w with phase := Phase.busy t } hw
    have hcw : busyContrib id w = 0 := by simp [busyContrib, hp]
    have hcw' : busyContrib id { w with phase := Phase.busy t } =
        if t = id then 1 else 0 := by simp [busyContrib]
    rw [hq, cntN_cons] at hownq
    rw [hcw, hcw'] at hbc
    omega
  · show s.nIdle = waitCount (setN s.workers i { w with phase := Phase.busy t })
    have hwc := waitCount_setN s.workers i w { w with phase := Phase.busy t } hw
    have h1 : waitContrib w = 0 := by simp [waitContrib, hp]
    have h2 : waitContrib { w with phase := Phase.busy t } = 0 := by simp [waitContrib]
    rw [h1, h2] at hwc
    rw [hInv.idle_eq]
    omega
  · intro w'' hmem hd
    rcases mem_setN s.workers i _ w'' hmem with hmem' | heq
    · exact hInv.done_flag w'' hmem' hd
    · subst heq
      have hcontra : Phase.busy t = Phase.done := hd
      cases hcontra
  · intro hne hdone hnoab
    exfalso
    have hset := nth?_setN_self s.workers i w { w with phase := Phase.busy t } hw
    have hmem := nth?_mem _ i _ hset
    have hcontra : Phase.busy t = Phase.done := hdone _ hmem
    cases hcontra

theorem inv_freshWait (s : PoolSt) (i : Nat) (w : Worker)
    (hw : nth? s.workers i = some w) (hp : w.phase = Phase.fresh) (hInv : Inv s) :
    Inv { s with nIdle := s.nIdle + 1,
                 workers := setN s.workers i { w with phase := Phase.waiting } } := by
  refine ⟨hInv.len_eq, hInv.spec_ok, ?_, ?_, ?_, ?_⟩
  · intro id
    have hownq : cntN id s.queue + busyCount id s.workers =
        pendWeight (nth? s.cells id) := hInv.own id
    show cntN id s.queue +
        busyCount id (setN s.workers i { w with phase := Phase.waiting }) =
      pendWeight (nth? s.cells id)
    have hbc := busyCount_setN id s.workers i w { w with phase := Phase.waiting } hw
    have hcw : busyContrib id w = 0 := by simp [busyContrib, hp]
    have hcw' : busyContrib id { w with phase := Phase.waiting } = 0 := by
      simp [busyContrib]
    rw [hcw, hcw'] at hbc
    omega
  · show s.nIdle + 1 = waitCount (setN s.workers i { w with phase := Phase.waiting })
    have hwc := waitCount_setN s.workers i w { w with phase := Phase.waiting } hw
    have h1 : waitContrib w = 0 := by simp [waitContrib, hp]
    have h2 : waitContrib { w with phase := Phase.waiting } = 1 := by simp [waitContrib]
    rw [h1, h2] at hwc
    rw [hInv.idle_eq]
    omega
  · intro w'' hmem hd
    rcases mem_setN s.workers i _ w'' hmem with hmem' | heq
    · exact hInv.done_flag w'' hmem' hd
    · subst heq
      have hcontra : Phase.waiting = Phase.done := hd
      cases hcontra
  · intro hne hdone hnoab
    exfalso
    have hset := nth?_setN_self s.workers i w { w with phase := Phase.waiting } hw
    have hmem := nth?_mem _ i _ hset
    have hcontra : Phase.waiting = Phase.done := hdone _ hmem
    cases hcontra

theorem inv_wakePop (s : PoolSt) (i : Nat) (w : Worker) (t : Nat) (rest : List Nat)
    (hw : nth? s.workers i = some w) (hp : w.phase = Phase.waiting)
    (hq : s.queue = t :: rest) (hInv : Inv s) :
    Inv { s with queue := rest, nIdle := s.nIdle - 1,
                 workers := setN s.workers i { w with phase := Phase.busy t } } := by
  refine ⟨hInv.len_eq, hInv.spec_ok, ?_, ?_, ?_, ?_⟩
  · intro id
    have hownq : cntN id s.queue + busyCount id s.workers =
        pendWeight (nth? s.cells id) := hInv.own id
    show cntN id rest + busyCount id (setN s.workers i { w with phase := Phase.busy t }) =
      pendWeight (nth? s.cells id)
    have hbc := busyCount_setN id s.workers i w { w with phase := Phase.busy t } hw
    have hcw : busyContrib id w = 0 := by simp [busyContrib, hp]
    have hcw' : busyContrib id { w with phase := Phase.busy t } =
        if t = id then 1 else 0 := by simp [busyContrib]
    rw [hq, cntN_cons] at hownq
    rw [hcw, hcw'] at hbc
    omega
  · show s.nIdle - 1 = waitCount (setN s.workers i { w with phase := Phase.busy t })
    have hwc := waitCount_setN s.workers i w { w with phase := Phase.busy t } hw
    have h1 : waitContrib w = 1 := by simp [waitContrib, hp]
    have h2 : waitContrib { w with phase := Phase.busy t } = 0 := by simp [waitContrib]
    rw [h1, h2] at hwc
    rw [hInv.idle_eq]
    omega
  · intro w'' hmem hd
    rcases mem_setN s.workers i _ w'' hmem with hmem' | heq
    · exact hInv.done_flag w'' hmem' hd
    · subst heq
      have hcontra : Phase.busy t = Phase.done := hd
      cases hcontra
  · intro hne hdone hnoab
    exfalso
    have hset := nth?_setN_self s.workers i w { w with phase := Phase.busy t } hw
    have hmem := nth?_mem _ i _ hset
    have hcontra : Phase.busy t = Phase.done := hdone _ hmem
    cases hcontra

theorem inv_wakeDone (s : PoolSt) (i : Nat) (w : Worker)
    (hw : nth? s.workers i = some w) (hp : w.phase = Phase.waiting)
    (hq : s.queue = []) (hcond : w.abort = true ∨ s.maInterrupt = true)
    (hInv : Inv s) :
    Inv { s with nIdle := s.nIdle - 1,
                 workers := setN s.workers i { w with phase := Phase.done } } := by
  refine ⟨hInv.len_eq, hInv.spec_ok, ?_, ?_, ?_, ?_⟩
  · intro id
    have hownq : cntN id s.queue + busyCount id s.workers =
        pendWeight (nth? s.cells id) := hInv.own id
    show cntN id s.queue +
        busyCount id (setN s.workers i { w with phase := Phase.done }) =
      pendWeight (nth? s.cells id)
    have hbc := busyCount_setN id s.workers i w { w with phase := Phase.done } hw
    have hcw : busyContrib id w = 0 := by simp [busyContrib, hp]
    have hcw' : busyContrib id { w with phase := Phase.done } = 0 := by simp [busyContrib]
    rw [hcw, hcw'] at hbc
    omega
  · show s.nIdle - 1 = waitCount (setN s.workers i { w with phase := Phase.done })
    have hwc := waitCount_setN s.workers i w { w with phase := Phase.done } hw
    have h1 : waitContrib w = 1 := by simp [waitContrib, hp]
    have h2 : waitContrib { w with phase := Phase.done } = 0 := by simp [waitContrib]
    rw [h1, h2] at hwc
    rw [hInv.idle_eq]
    omega
  · intro w'' hmem hd
    rcases mem_setN s.workers i _ w'' hmem with hmem' | heq
    · exact hInv.done_flag w'' hmem' hd
    · subst heq
      rcases hcond with hc | hc
      · exact Or.inl hc
      · exact Or.inr hc
  · intro hne hdone hnoab
    exact hq

theorem inv_interruptFlag (s : PoolSt) (hInv : Inv s) :
    Inv { s with maInterrupt := true } := by
  refine ⟨hInv.len_eq, hInv.spec_ok, ?_, hInv.idle_eq, ?_, ?_⟩
  · intro id
    exact hInv.own id
  · intro w'' hmem hd
    exact Or.inr rfl
  · intro hne hdone hnoab
    exact hInv.drainP hne hdone hnoab

theorem inv_killFlag (s : PoolSt) (hInv : Inv s) :
    Inv { s with maKill := true,
                 workers := s.workers.map (fun w => { w with abort := true }) } := by
  refine ⟨hInv.len_eq, hInv.spec_ok, ?_, ?_, ?_, ?_⟩
  · intro id
    show cntN id s.queue +
        busyCount id (s.workers.map (fun w => { w with abort := true })) =
      pendWeight (nth? s.cells id)
    rw [busyCount_map_abort]
    exact hInv.own id
  · show s.nIdle = waitCount (s.workers.map (fun w => { w with abort := true }))
    rw [waitCount_map_abort]
    exact hInv.idle_eq
  · intro w'' hmem hd
    obtain ⟨w0, hw0, hmap⟩ := List.mem_map.mp hmem
    rw [← hmap]
    exact Or.inl rfl
  · intro hne hdone hnoab
    exfalso
    have hne' : s.workers ≠ [] := by
      intro h
      apply hne
      show s.workers.map (fun w => { w with abort := true }) = []
      rw [h]
      rfl
    obtain ⟨w0, hw0⟩ := List.exists_mem_of_ne_nil _ hne'
    have hmem : ({ w0 with abort := true } : Worker) ∈
        s.workers.map (fun w => { w with abort := true }) :=
      List.mem_map_of_mem _ hw0
    have hfalse : ({ w0 with abort := true } : Worker).abort = false := hnoab _ hmem
    cases hfalse

theorem inv_exec (s : PoolSt) (i : Nat) (w : Worker) (t : Nat)
    (hw : nth? s.workers i = some w) (hp : w.phase = Phase.busy t) (hInv : Inv s) :
    Inv (afterExec s i w t) := by
  have hbpos : 0 < busyCount t s.workers := busyCount_pos t s.workers i w hw hp
  have hown_t : cntN t s.queue + busyCount t s.workers =
      pendWeight (nth? s.cells t) := hInv.own t
  have hple := pendWeight_le_one (nth? s.cells t)
  have hpw1 : pendWeight (nth? s.cells t) = 1 := by omega
  obtain ⟨o, hcell_t⟩ := pendWeight_eq_one _ hpw1
  have hq0 : cntN t s.queue = 0 := by rw [hpw1] at hown_t; omega
  have hb1 : busyCount t s.workers = 1 := by rw [hpw1] at hown_t; omega
  have hcell' : nth? (modifyAt s.cells t resolveExec) t = some (Cell.executed o) := by
    simpa [resolveExec] using nth?_modifyAt_self resolveExec hcell_t
  have hlen' : (modifyAt s.cells t resolveExec).length = s.specs.length := by
    rw [length_modifyAt]
    exact hInv.len_eq
  have hspec' : ∀ id c, nth? (modifyAt s.cells t resolveExec) id = some c →
      ∃ o', nth? s.specs id = some o' ∧ (c = Cell.pending o' ∨ c = Cell.executed o') := by
    intro id c h
    by_cases hid : t = id
    · subst hid
      rw [hcell'] at h
      cases h
      obtain ⟨o', hso, hpe⟩ := hInv.spec_ok t _ hcell_t
      rcases hpe with hpe | hpe
      · cases hpe
        exact ⟨o, hso, Or.inr rfl⟩
      · cases hpe
    · rw [nth?_modifyAt_ne resolveExec hid] at h
      exact hInv.spec_ok id c h
  have hpw' : ∀ id, t ≠ id →
      pendWeight (nth? (modifyAt s.cells t resolveExec) id) =
        pendWeight (nth? s.cells id) := by
    intro id hid
    rw [nth?_modifyAt_ne resolveExec hid]
  have hpwt : pendWeight (nth? (modifyAt s.cells t resolveExec) t) = 0 := by
    rw [hcell']
    rfl
  by_cases hab : w.abort = true
  · rw [afterExec_abort s i w t hab]
    refine ⟨hlen', hspec', ?_, ?_, ?_, ?_⟩
    · intro id
      have hownq : cntN id s.queue + busyCount id s.workers =
          pendWeight (nth? s.cells id) := hInv.own id
      show cntN id s.queue +
          busyCount id (setN s.workers i { w with phase := Phase.done }) =
        pendWeight (nth? (modifyAt s.cells t resolveExec) id)
      have hbc := busyCount_setN id s.workers i w { w with phase := Phase.done } hw
      have hcw : busyContrib id w = if t = id then 1 else 0 := by simp [busyContrib, hp]
      have hcw' : busyContrib id { w with phase := Phase.done } = 0 := by simp [busyContrib]
      rw [hcw, hcw'] at hbc
      by_cases hid : t = id
      · subst hid
        rw [hpwt]
        rw [if_pos rfl] at hbc
        omega
      · rw [hpw' id hid]
        rw [if_neg hid] at hbc
        omega
    · show s.nIdle = waitCount (setN s.workers i { w with phase := Phase.done })
      have hwc := waitCount_setN s.workers i w { w with phase := Phase.done } hw
      have h1 : waitContrib w = 0 := by simp [waitContrib, hp]
      have h2 : waitContrib { w with phase := Phase.done } = 0 := by simp [waitContrib]
      rw [h1, h2] at hwc
      rw [hInv.idle_eq]
      omega
    · intro w'' hmem hd
      rcases mem_setN s.workers i _ w'' hmem with hmem' | heq
      · exact hInv.done_flag w'' hmem' hd
      · subst heq
        exact Or.inl hab
    · intro hne hdone hnoab
      exfalso
      have hset := nth?_setN_self s.workers i w { w with phase := Phase.done } hw
      have hmem := nth?_mem _ i _ hset
      have hfalse' := hnoab _ hmem
      have hfalse : w.abort = false := hfalse'
      rw [hab] at hfalse
      cases hfalse
  · have hab' : w.abort = false := by
      cases h : w.abort
      · rfl
      · exact absurd h hab
    cases hqe : s.queue with
    | nil =>
      rw [afterExec_nil s i w t hab' hqe]
      refine ⟨hlen', hspec', ?_, ?_, ?_, ?_⟩
      · intro id
        have hownq : cntN id s.queue + busyCount id s.workers =
            pendWeight (nth? s.cells id) := hInv.own id
        show cntN id s.queue +
            busyCount id (setN s.workers i { w with phase := Phase.waiting }) =
          pendWeight (nth? (modifyAt s.cells t resolveExec) id)
        have hbc := busyCount_setN id s.workers i w { w with phase := Phase.waiting } hw
        have hcw : busyContrib id w = if t = id then 1 else 0 := by simp [busyContrib, hp]
        have hcw' : busyContrib id { w with phase := Phase.waiting } = 0 := by
          simp [busyContrib]
        rw [hcw, hcw'] at hbc
        by_cases hid : t = id
        · subst hid
          rw [hpwt]
          rw [if_pos rfl] at hbc
          omega
        · rw [hpw' id hid]
          rw [if_neg hid] at hbc
          omega
      · show s.nIdle + 1 = waitCount (setN s.workers i { w with phase := Phase.waiting })
        have hwc := waitCount_setN s.workers i w { w with phase := Phase.waiting } hw
        have h1 : waitContrib w = 0 := by simp [waitContrib, hp]
        have h2 : waitContrib { w with phase := Phase.waiting } = 1 := by simp [waitContrib]
        rw [h1, h2] at hwc
        rw [hInv.idle_eq]
        omega
      · intro w'' hmem hd
        rcases mem_setN s.workers i _ w'' hmem with hmem' | heq
        · exact hInv.done_flag w'' hmem' hd
        · subst heq
          have hcontra : Phase.waiting = Phase.done := hd
          cases hcontra
      · intro hne hdone hnoab
        exfalso
        have hset := nth?_setN_self s.workers i w { w with phase := Phase.waiting } hw
        have hmem := nth?_mem _ i _ hset
        have hcontra : Phase.waiting = Phase.done := hdone _ hmem
        cases hcontra
    | cons t' rest =>
      rw [afterExec_cons s i w t t' rest hab' hqe]
      have ht't : t' ≠ t := by
        intro h
        subst h
        rw [hqe, cntN_cons, if_pos rfl] at hq0
        omega
      have hrest0 : cntN t rest = 0 := by
        rw [hqe, cntN_cons] at hq0
        omega
      refine ⟨hlen', hspec', ?_, ?_, ?_, ?_⟩
      · intro id
        have hownq : cntN id s.queue + busyCount id s.workers =
            pendWeight (nth? s.cells id) := hInv.own id
        show cntN id rest +
            busyCount id (setN s.workers i { w with phase := Phase.busy t' }) =
          pendWeight (nth? (modifyAt s.cells t resolveExec) id)
        have hbc := busyCount_setN id s.workers i w { w with phase := Phase.busy t' } hw
        have hcw : busyContrib id w = if t = id then 1 else 0 := by simp [busyContrib, hp]
        have hcw' : busyContrib id { w with phase := Phase.busy t' } =
            if t' = id then 1 else 0 := by simp [busyContrib]
        rw [hcw, hcw'] at hbc
        rw [hqe, cntN_cons] at hownq
        by_cases hid : t = id
        · subst hid
          rw [hpwt]
          rw [if_pos rfl] at hbc
          rw [if_neg ht't] at hbc
          omega
        · rw [hpw' id hid]
          rw [if_neg hid] at hbc
          omega
      · show s.nIdle = waitCount (setN s.workers i { w with phase := Phase.busy t' })
        have hwc := waitCount_setN s.workers i w { w with phase := Phase.busy t' } hw
        have h1 : waitContrib w = 0 := by simp [waitContrib, hp]
        have h2 : waitContrib { w with phase := Phase.busy t' } = 0 := by simp [waitContrib]
        rw [h1, h2] at hwc
        rw [hInv.idle_eq]
        omega
      · intro w'' hmem hd
        rcases mem_setN s.workers i _ w'' hmem with hmem' | heq
        · exact hInv.done_flag w'' hmem' hd
        · subst heq
          have hcontra : Phase.busy t' = Phase.done := hd
          cases hcontra
      · intro hne hdone hnoab
        exfalso
        have hset := nth?_setN_self s.workers i w { w with phase := Phase.busy t' } hw
        have hmem := nth?_mem _ i _ hset
        have hcontra : Phase.busy t' = Phase.done := hdone _ hmem
        cases hcontra

/-- Every `Step` preserves the invariant. -/
theorem inv_step {s s' : PoolSt} (hInv : Inv s) (hstep : Step s s') : Inv s' := by
  cases hstep with
  | push o hk hi => exact inv_push s o hi hInv
  | freshPop i w t rest hw hp hq => exact inv_freshPop s i w t rest hw hp hq hInv
  | freshWait i w hw hp hq => exact inv_freshWait s i w hw hp hInv
  | exec i w t hw hp => exact inv_exec s i w t hw hp hInv
  | wakePop i w t rest hw hp hq => exact inv_wakePop s i w t rest hw hp hq hInv
  | wakeDone i w hw hp hq hcond => exact inv_wakeDone s i w hw hp hq hcond hInv
  | interruptFlag hi hk => exact inv_interruptFlag s hInv
  | killFlag hk => exact inv_killFlag s hInv

/-- Every reachable pool state satisfies the invariant. -/
theorem reach_inv : ∀ {s : PoolSt}, Reach s → Inv s := by
  intro s h
  induction h with
  | init n => exact inv_init n
  | step hr hst ih => exact inv_step ih hst

/-- Worker slots other than the stepping one are untouched by `exec`. -/
theorem afterExec_workers_ne (s : PoolSt) (j : Nat) (w2 : Worker) (t2 i : Nat)
    (hji : j ≠ i) :
    nth? (afterExec s j w2 t2).workers i = nth? s.workers i := by
  by_cases hab2 : w2.abort = true
  · rw [afterExec_abort s j w2 t2 hab2]
    exact nth?_setN_ne s.workers j i _ hji
  · have hab2' : w2.abort = false := by
      cases h : w2.abort
      · rfl
      · exact absurd h hab2
    cases hq : s.queue with
    | nil =>
      rw [afterExec_nil s j w2 t2 hab2' hq]
      exact nth?_setN_ne s.workers j i _ hji
    | cons a as =>
      rw [afterExec_cons s j w2 t2 a as hab2' hq]
      exact nth?_setN_ne s.workers j i _ hji

/-- C4: once `interrupt(true)` has set the kill-flag and joined every worker,
discarding the queue resolves every still-queued task's shared state as
abandoned at discard time; afterwards no shared state is left pending, and
`get()` on an abandoned handle raises the broken-promise failure at once
instead of blocking forever. -/
theorem kill_discard_resolves_queued (s : PoolSt) (hre : Reach s)
    (_hkill : s.maKill = true) (hdone : ∀ w ∈ s.workers, w.phase = Phase.done) :
    (∀ id, id ∈ s.queue → nth? (clearQueueFinish s).cells id = some Cell.abandoned) ∧
    (∀ id o, nth? (clearQueueFinish s).cells id ≠ some (Cell.pending o)) ∧
    futGet (FutureSt.st Cell.abandoned) =
      (GetRes.raise Exc.brokenPromise, FutureSt.invalid) ∧
    GetRes.raise Exc.brokenPromise ≠ GetRes.blocked := by
  have hInv := reach_inv hre
  refine ⟨?_, ?_, rfl, by intro h; cases h⟩
  · intro id hid
    have hpos : 0 < cntN id s.queue := (cntN_pos_iff id s.queue).mpr hid
    have hown : cntN id s.queue + busyCount id s.workers =
        pendWeight (nth? s.cells id) := hInv.own id
    have hple := pendWeight_le_one (nth? s.cells id)
    have hpw1 : pendWeight (nth? s.cells id) = 1 := by omega
    obtain ⟨o, hcell⟩ := pendWeight_eq_one _ hpw1
    show nth? (clearFold s.cells s.queue) id = some Cell.abandoned
    exact clearFold_pending_mem s.queue s.cells id o hcell hid
  · intro id o h
    have h' : nth? (clearFold s.cells s.queue) id = some (Cell.pending o) := h
    obtain ⟨hcell, hnot⟩ := clearFold_pending_inv s.queue s.cells id o h'
    have hown : cntN id s.queue + busyCount id s.workers =
        pendWeight (nth? s.cells id) := hInv.own id
    have hbz : busyCount id s.workers = 0 := busyCount_zero_of_done id s.workers hdone
    have hpw : pendWeight (nth? s.cells id) = 1 := by rw [hcell]; rfl
    have hpos : 0 < cntN id s.queue := by omega
    exact hnot ((cntN_pos_iff id s.queue).mp hpos)

/-- C5, amended: under graceful shutdown of a pool with AT LEAST ONE worker
and no abort-flagged worker, a worker only terminates having seen the queue
empty, so when every worker has terminated the queue is empty, the interrupt
flag is set, and after `interrupt(false)`'s final `clear_queue` every
submitted task's shared state holds the executed outcome recorded for that
task at submission (its true outcome). -/
theorem graceful_drain_with_workers (s : PoolSt) (hre : Reach s)
    (hne : s.workers ≠ []) (hnoab : ∀ w ∈ s.workers, w.abort = false)
    (hdone : ∀ w ∈ s.workers, w.phase = Phase.done) :
    s.queue = [] ∧ s.maInterrupt = true ∧
    (∀ id c, nth? (clearQueueFinish s).cells id = some c →
      ∃ o, nth? s.specs id = some o ∧ c = Cell.executed o) := by
  have hInv := reach_inv hre
  have hq := hInv.drainP hne hdone hnoab
  obtain ⟨w0, hw0⟩ := List.exists_mem_of_ne_nil _ hne
  have hint : s.maInterrupt = true := by
    rcases hInv.done_flag w0 hw0 (hdone w0 hw0) with h | h
    · rw [hnoab w0 hw0] at h
      cases h
    · exact h
  refine ⟨hq, hint, ?_⟩
  intro id c h
  have h' : nth? (clearFold s.cells s.queue) id = some c := h
  rw [hq, clearFold_nil] at h'
  obtain ⟨o, hso, hpe⟩ := hInv.spec_ok id c h'
  rcases hpe with hpe | hpe
  · exfalso
    subst hpe
    have hown : cntN id s.queue + busyCount id s.workers =
        pendWeight (nth? s.cells id) := hInv.own id
    have hbz : busyCount id s.workers = 0 := busyCount_zero_of_done id s.workers hdone
    have hqz : cntN id s.queue = 0 := by rw [hq]; rfl
    have hpw : pendWeight (nth? s.cells id) = 1 := by rw [h']; rfl
    omega
  · exact ⟨o, hso, hpe⟩

/-- C6, amended: after its abort flag is set, a worker that is DRAINING
(holding a task) finishes that one task and terminates without dequeuing
anything further: whenever such a worker takes a step, it either was not the
one stepping, or it stores its task's outcome and terminates with the queue
untouched.  (An IDLE worker is different: its wake-up predicate pops before
testing the abort flag, so it can still dequeue — and then execute — one
more task; see the counterexample.) -/
theorem aborted_busy_worker_stops (s s' : PoolSt) (i t : Nat) (w : Worker)
    (hstep : Step s s') (hw : nth? s.workers i = some w)
    (hb : w.phase = Phase.busy t) (hab : w.abort = true) :
    nth? s'.workers i = some w ∨
    (nth? s'.workers i = some ⟨true, Phase.done⟩ ∧ s'.queue = s.queue ∧
     s'.cells = modifyAt s.cells t resolveExec) := by
  cases hstep with
  | push o hk hi => exact Or.inl hw
  | freshPop j w2 t2 rest hw2 hp2 hq2 =>
    by_cases hji : j = i
    · subst hji
      rw [hw] at hw2
      cases hw2
      rw [hb] at hp2
      cases hp2
    · exact Or.inl (by rw [nth?_setN_ne s.workers j i _ hji]; exact hw)
  | freshWait j w2 hw2 hp2 hq2 =>
    by_cases hji : j = i
    · subst hji
      rw [hw] at hw2
      cases hw2
      rw [hb] at hp2
      cases hp2
    · exact Or.inl (by rw [nth?_setN_ne s.workers j i _ hji]; exact hw)
  | exec j w2 t2 hw2 hp2 =>
    by_cases hji : j = i
    · subst hji
      rw [hw] at hw2
      cases hw2
      rw [hb] at hp2
      cases hp2
      right
      rw [afterExec_abort s j w t hab]
      refine ⟨?_, rfl, rfl⟩
      rw [nth?_setN_self s.workers j w { w with phase := Phase.done } hw]
      have hww : ({ w with phase := Phase.done } : Worker) = ⟨true, Phase.done⟩ := by
        have h1 : w.abort = true := hab
        cases w with
        | mk ab ph =>
          have h2 : ab = true := h1
          rw [h2]
      rw [hww]
    · exact Or.inl (by rw [afterExec_workers_ne s j w2 t2 i hji]; exact hw)
  | wakePop j w2 t2 rest hw2 hp2 hq2 =>
    by_cases hji : j = i
    · subst hji
      rw [hw] at hw2
      cases hw2
      rw [hb] at hp2
      cases hp2
    · exact Or.inl (by rw [nth?_setN_ne s.workers j i _ hji]; exact hw)
  | wakeDone j w2 hw2 hp2 hq2 hcond2 =>
    by_cases hji : j = i
    · subst hji
      rw [hw] at hw2
      cases hw2
      rw [hb] at hp2
      cases hp2
    · exact Or.inl (by rw [nth?_setN_ne s.workers j i _ hji]; exact hw)
  | interruptFlag hi hk => exact Or.inl hw
  | killFlag hk =>
    left
    show nth? (s.workers.map (fun v => { v with abort := true })) i = some w
    rw [nth?_map, hw]
    have hww : ({ w with abort := true } : Worker) = w := by
      have h1 : w.abort = true := hab
      cases w with
      | mk ab ph =>
        have h2 : ab = true := h1
        rw [h2]
    show some ({ w with abort := true } : Worker) = some w
    rw [hww]

/-- C10: in every reachable state the idle counter equals the number of
workers actually inside the condition wait (each worker increments it
exactly when it starts waiting and decrements it before resuming or
terminating), so a terminated worker is never counted idle and once every
worker has terminated `n_idle()` is 0. -/
theorem idle_counter_balanced (s : PoolSt) (hre : Reach s) :
    s.nIdle = waitCount s.workers ∧
    ((∀ w ∈ s.workers, w.phase = Phase.done) → s.nIdle = 0) := by
  have hInv := reach_inv hre
  refine ⟨hInv.idle_eq, ?_⟩
  intro hdone
  rw [hInv.idle_eq, waitCount_zero_of_done s.workers hdone]

/-! ### Concrete reachable traces used by the counterexamples and witnesses -/

/-- One fresh worker. -/
def p0 : PoolSt := initSt 1

/-- The worker found the queue empty and went idle. -/
def pWait : PoolSt :=
  { queue := [], cells := [], specs := [], maInterrupt := false, maKill := false,
    nIdle := 1, workers := [⟨false, Phase.waiting⟩] }

/-- Task 0 (returning 7) was submitted while the worker idles. -/
def pOne : PoolSt :=
  { queue := [0], cells := [Cell.pending (Outcome.value 7)],
    specs := [Outcome.value 7], maInterrupt := false, maKill := false,
    nIdle := 1, workers := [⟨false, Phase.waiting⟩] }

theorem step_p0_pWait : Step p0 pWait :=
  Step.freshWait p0 0 ⟨false, Phase.fresh⟩ rfl rfl rfl

theorem step_pWait_pOne : Step pWait pOne :=
  Step.push pWait (Outcome.value 7) rfl rfl

theorem reach_pOne : Reach pOne :=
  Reach.step (Reach.step (Reach.init 1) step_p0_pWait) step_pWait_pOne

/-- Graceful trace: the worker wakes with the task, executes it, goes idle
again, `interrupt(false)` is called, and the worker terminates. -/
def sA3 : PoolSt :=
  { queue := [], cells := [Cell.pending (Outcome.value 7)],
    specs := [Outcome.value 7], maInterrupt := false, maKill := false,
    nIdle := 0, workers := [⟨false, Phase.busy 0⟩] }

def sA4 : PoolSt :=
  { queue := [], cells := [Cell.executed (Outcome.value 7)],
    specs := [Outcome.value 7], maInterrupt := false, maKill := false,
    nIdle := 1, workers := [⟨false, Phase.waiting⟩] }

def sA5 : PoolSt :=
  { queue := [], cells := [Cell.executed (Outcome.value 7)],
    specs := [Outcome.value 7], maInterrupt := true, maKill := false,
    nIdle := 1, workers := [⟨false, Phase.waiting⟩] }

def sA6 : PoolSt :=
  { queue := [], cells := [Cell.executed (Outcome.value 7)],
    specs := [Outcome.value 7], maInterrupt := true, maKill := false,
    nIdle := 0, workers := [⟨false, Phase.done⟩] }

theorem step_pOne_sA3 : Step pOne sA3 :=
  Step.wakePop pOne 0 ⟨false, Phase.waiting⟩ 0 [] rfl rfl rfl

theorem step_sA3_sA4 : Step sA3 sA4 :=
  Step.exec sA3 0 ⟨false, Phase.busy 0⟩ 0 rfl rfl

theorem step_sA4_sA5 : Step sA4 sA5 :=
  Step.interruptFlag sA4 rfl rfl

theorem step_sA5_sA6 : Step sA5 sA6 :=
  Step.wakeDone sA5 0 ⟨false, Phase.waiting⟩ rfl rfl rfl (Or.inr rfl)

theorem reach_sA6 : Reach sA6 :=
  Reach.step (Reach.step (Reach.step (Reach.step reach_pOne step_pOne_sA3)
    step_sA3_sA4) step_sA4_sA5) step_sA5_sA6

/-- Kill trace with a second queued task: submit task 1 (returning 6), then
`interrupt(true)`; the idle worker still pops task 0, executes it, and
terminates, leaving task 1 queued. -/
def sB3 : PoolSt :=
  { queue := [0, 1],
    cells := [Cell.pending (Outcome.value 7), Cell.pending (Outcome.value 6)],
    specs := [Outcome.value 7, Outcome.value 6], maInterrupt := false,
    maKill := false, nIdle := 1, workers := [⟨false, Phase.waiting⟩] }

def sB4 : PoolSt :=
  { queue := [0, 1],
    cells := [Cell.pending (Outcome.value 7), Cell.pending (Outcome.value 6)],
    specs := [Outcome.value 7, Outcome.value 6], maInterrupt := false,
    maKill := true, nIdle := 1, workers := [⟨true, Phase.waiting⟩] }

def sB5 : PoolSt :=
  { queue := [1],
    cells := [Cell.pending (Outcome.value 7), Cell.pending (Outcome.value 6)],
    specs := [Outcome.value 7, Outcome.value 6], maInterrupt := false,
    maKill := true, nIdle := 0, workers := [⟨true, Phase.busy 0⟩] }

def sB6 : PoolSt :=
  { queue := [1],
    cells := [Cell.executed (Outcome.value 7), Cell.pending (Outcome.value 6)],
    specs := [Outcome.value 7, Outcome.value 6], maInterrupt := false,
    maKill := true, nIdle := 0, workers := [⟨true, Phase.done⟩] }

theorem step_pOne_sB3 : Step pOne sB3 :=
  Step.push pOne (Outcome.value 6) rfl rfl

theorem step_sB3_sB4 : Step sB3 sB4 :=
  Step.killFlag sB3 rfl

theorem step_sB4_sB5 : Step sB4 sB5 :=
  Step.wakePop sB4 0 ⟨true, Phase.waiting⟩ 0 [1] rfl rfl rfl

theorem step_sB5_sB6 : Step sB5 sB6 :=
  Step.exec sB5 0 ⟨true, Phase.busy 0⟩ 0 rfl rfl

theorem reach_sB6 : Reach sB6 :=
  Reach.step (Reach.step (Reach.step (Reach.step reach_pOne step_pOne_sB3)
    step_sB3_sB4) step_sB4_sB5) step_sB5_sB6

/-- Kill trace with the single task still queued: `interrupt(true)` is
called while the worker idles and task 0 is queued. -/
def sC3 : PoolSt :=
  { queue := [0], cells := [Cell.pending (Outcome.value 7)],
    specs := [Outcome.value 7], maInterrupt := false, maKill := true,
    nIdle := 1, workers := [⟨true, Phase.waiting⟩] }

def sC4 : PoolSt :=
  { queue := [], cells := [Cell.pending (Outcome.value 7)],
    specs := [Outcome.value 7], maInterrupt := false, maKill := true,
    nIdle := 0, workers := [⟨true, Phase.busy 0⟩] }

def sC5 : PoolSt :=
  { queue := [], cells := [Cell.executed (Outcome.value 7)],
    specs := [Outcome.value 7], maInterrupt := false, maKill := true,
    nIdle := 0, workers := [⟨true, Phase.done⟩] }

theorem step_pOne_sC3 : Step pOne sC3 :=
  Step.killFlag pOne rfl

theorem step_sC3_sC4 : Step sC3 sC4 :=
  Step.wakePop sC3 0 ⟨true, Phase.waiting⟩ 0 [] rfl rfl rfl

theorem step_sC4_sC5 : Step sC4 sC5 :=
  Step.exec sC4 0 ⟨true, Phase.busy 0⟩ 0 rfl rfl

theorem reach_sC3 : Reach sC3 :=
  Reach.step reach_pOne step_pOne_sC3

/-- Zero-worker trace: a pool constructed with no threads accepts a task,
then `interrupt(false)` is called. -/
def sD1 : PoolSt :=
  { queue := [0], cells := [Cell.pending (Outcome.value 5)],
    specs := [Outcome.value 5], maInterrupt := false, maKill := false,
    nIdle := 0, workers := [] }

def sD2 : PoolSt :=
  { queue := [0], cells := [Cell.pending (Outcome.value 5)],
    specs := [Outcome.value 5], maInterrupt := true, maKill := false,
    nIdle := 0, workers := [] }

theorem step_init0_sD1 : Step (initSt 0) sD1 :=
  Step.push (initSt 0) (Outcome.value 5) rfl rfl

theorem step_sD1_sD2 : Step sD1 sD2 :=
  Step.interruptFlag sD1 rfl rfl

theorem reach_sD2 : Reach sD2 :=
  Reach.step (Reach.step (Reach.init 0) step_init0_sD1) step_sD1_sD2

/-- C5, counterexample: in a pool with ZERO workers (the claim quantifies
over graceful shutdown in general), a task accepted before `interrupt(false)`
is never executed — all worker-termination conditions hold vacuously, and
the final `clear_queue` of `interrupt(false)` abandons its shared state, so
its handle does not resolve to the task's true outcome. -/
theorem graceful_zero_workers_abandons :
    Reach sD2 ∧ sD2.maInterrupt = true ∧ sD2.workers = [] ∧
    (∀ w ∈ sD2.workers, w.phase = Phase.done) ∧
    (∀ w ∈ sD2.workers, w.abort = false) ∧
    nth? sD2.specs 0 = some (Outcome.value 5) ∧
    nth? (clearQueueFinish sD2).cells 0 = some Cell.abandoned ∧
    Cell.abandoned ≠ Cell.executed (Outcome.value 5) := by
  refine ⟨reach_sD2, rfl, rfl, ?_, ?_, rfl, rfl, ?_⟩
  · intro w hw
    cases hw
  · intro w hw
    cases hw
  · intro h
    cases h

/-- Witness for C5 (amended) on the concrete one-worker graceful trace. -/
theorem graceful_drain_with_workers_witness :
    sA6.workers ≠ [] ∧ (∀ w ∈ sA6.workers, w.abort = false) ∧
    (∀ w ∈ sA6.workers, w.phase = Phase.done) ∧
    sA6.queue = [] ∧ sA6.maInterrupt = true ∧
    (∃ o, nth? sA6.specs 0 = some o ∧
      Cell.executed (Outcome.value 7) = Cell.executed o) := by
  have h := graceful_drain_with_workers sA6 reach_sA6 (by decide) (by decide) (by decide)
  exact ⟨by decide, by decide, by decide, h.1, h.2.1,
    h.2.2 0 (Cell.executed (Outcome.value 7)) (by decide)⟩

/-- Witness for C4 on the concrete kill trace with task 1 still queued. -/
theorem kill_discard_resolves_queued_witness :
    sB6.maKill = true ∧ (∀ w ∈ sB6.workers, w.phase = Phase.done) ∧
    1 ∈ sB6.queue ∧
    nth? (clearQueueFinish sB6).cells 1 = some Cell.abandoned ∧
    futGet (FutureSt.st Cell.abandoned) =
      (GetRes.raise Exc.brokenPromise, FutureSt.invalid) := by
  have h := kill_discard_resolves_queued sB6 reach_sB6 rfl (by decide)
  exact ⟨rfl, by decide, by decide, h.1 1 (by decide), h.2.2.1⟩

/-- C6, counterexample: after `interrupt(true)` set the idle worker's abort
flag (state `sC3`), the worker's very next step still dequeues task 0 — the
wait predicate pops before it looks at the abort flag — refuting the claim
that a worker never dequeues a further task once its abort flag is set. -/
theorem aborted_idle_worker_pops :
    Reach sC3 ∧ sC3.maKill = true ∧
    nth? sC3.workers 0 = some ⟨true, Phase.waiting⟩ ∧
    sC3.queue = [0] ∧
    Step sC3 sC4 ∧
    nth? sC4.workers 0 = some ⟨true, Phase.busy 0⟩ ∧
    sC4.queue = [] :=
  ⟨reach_sC3, rfl, rfl, rfl, step_sC3_sC4, rfl, rfl⟩

/-- Witness for C6 (amended) on the concrete exec step of the aborted busy worker. -/
theorem aborted_busy_worker_stops_witness :
    Step sC4 sC5 ∧ nth? sC4.workers 0 = some (⟨true, Phase.busy 0⟩ : Worker) ∧
    (nth? sC5.workers 0 = some (⟨true, Phase.busy 0⟩ : Worker) ∨
     (nth? sC5.workers 0 = some (⟨true, Phase.done⟩ : Worker) ∧
      sC5.queue = sC4.queue ∧ sC5.cells = modifyAt sC4.cells 0 resolveExec)) :=
  ⟨step_sC4_sC5, rfl,
   aborted_busy_worker_stops sC4 sC5 0 0 ⟨true, Phase.busy 0⟩ step_sC4_sC5 rfl rfl rfl⟩

/-- Witness for C10 on the final state of the graceful trace. -/
theorem idle_counter_balanced_witness :
    sA6.nIdle = waitCount sA6.workers ∧ sA6.nIdle = 0 := by
  have h := idle_counter_balanced sA6 reach_sA6
  exact ⟨h.1, h.2 (by decide)⟩

end ctpl
